import Mathlib

/- Verification of the diff-chunking and concurrent-review-dispatch subsystem of
the cra-gitlab service. The TypeScript sources (DiffSplitter, the multi-chunk
reviewer, AmpReviewer and ReviewJobQueue) are embedded shallowly: strings are
Lean strings, JavaScript string length is the character count, maps keep
insertion order as association lists, and the asynchronous parts are modelled
by explicit state passing (an async function body runs synchronously up to its
first await, which the queue embedding reflects). -/

/-! ### Data model (src/review/types.ts) -/

/-- Line classification of a review issue ('ADDED' | 'REMOVED' | 'CONTEXT'). -/
inductive LineType where
  | ADDED
  | REMOVED
  | CONTEXT
deriving DecidableEq, Repr

/-- `ReviewIssue` from types.ts. -/
structure ReviewIssue where
  path : String
  line : Int
  line_type : LineType
  message : String
  suggested_fix : Option String
deriving DecidableEq, Repr

/-- `ReviewChunk` from types.ts. -/
structure ReviewChunk where
  chunk_id : Nat
  files : List String
  total_chars : Nat
  diff_content : String
deriving DecidableEq, Repr

/-- The shape of one `partial_failures` entry in `ReviewResult`, which is also
the shape of the `ChunkError` accumulator of the multi-chunk reviewer. -/
structure ChunkError where
  chunk_id : Nat
  files : List String
  error : String
deriving DecidableEq, Repr

/-- The `stats` object built by the multi-chunk reviewer's aggregation. -/
structure SummaryStats where
  total_files_reviewed : Nat
  chunks_processed : Nat
  chunks_failed : Nat
  total_issues : Nat
  thread_ids : List String
deriving DecidableEq, Repr

/-- `ReviewResult` from types.ts; an absent (undefined) optional field is
`none`.  The webhook-only passthrough fields (mr_iid, project_id, commit_sha,
issues_found, review_result), never touched by the subsystem under
verification, are omitted. -/
structure ReviewResult where
  success : Bool
  issues : Option (List ReviewIssue) := none
  structured_issues : Option (List ReviewIssue) := none
  final_review : Option String := none
  thread_ids : Option (List String) := none
  error : Option String := none
  stats : Option SummaryStats := none
  partial_failures : Option (List ChunkError) := none
deriving DecidableEq, Repr

/-- `ChunkResult` from the multi-chunk reviewer. -/
structure ChunkResult where
  chunk_id : Nat
  files : List String
  result : ReviewResult
deriving DecidableEq, Repr

/-- `DEFAULT_MAX_CHUNK_SIZE` from types.ts. -/
def DEFAULT_MAX_CHUNK_SIZE : Nat := 500000

/-- `DEFAULT_MAX_CONCURRENT` from types.ts. -/
def DEFAULT_MAX_CONCURRENT : Nat := 3

/-! ### String helpers

JavaScript primitives used by the sources, spelled out so that every
definition evaluates by kernel reduction: `String.prototype.split('\n')`,
`Array.prototype.join('\n')`, prefix test and substring test. -/

/-- `split('\n')` on the character list, accumulator reversed per line. -/
def splitLinesAux : List Char → List Char → List String
  | [], acc => [⟨acc.reverse⟩]
  | c :: cs, acc =>
    if c = '\n' then ⟨acc.reverse⟩ :: splitLinesAux cs []
    else splitLinesAux cs (c :: acc)

/-- JavaScript `s.split('\n')`. -/
def splitLines (s : String) : List String :=
  splitLinesAux s.data []

/-- JavaScript `lines.join('\n')`. -/
def joinLines : List String → String
  | [] => ""
  | [l] => l
  | l :: ls => l ++ "\n" ++ joinLines ls

/-- Whether the first list is an initial segment of the second. -/
def startsWithList : List Char → List Char → Bool
  | [], _ => true
  | _ :: _, [] => false
  | c :: cs, d :: ds => c = d && startsWithList cs ds

/-- JavaScript `s.includes(sub)` on character lists. -/
def hasSubstring (sub : List Char) : List Char → Bool
  | [] => startsWithList sub []
  | c :: cs => startsWithList sub (c :: cs) || hasSubstring sub cs

/-! ### DiffSplitter (src/review/diff-splitter.ts) -/

/-- `FileDiff` from diff-splitter.ts. -/
structure FileDiff where
  file_path : String
  diff_content : String
  char_count : Nat
deriving DecidableEq, Repr

/-- The constant part of the file-header pattern `^diff --git a\/... `. -/
def headerStart : List Char := "diff --git a/".data

/-- The lazy groups of `^diff --git a\/(.+?) b\/(.+?)$` applied to the text
after the constant prefix: the separator " b/" is placed at the first position
that leaves both groups non-empty (lazy first group, end-anchored second
group), returning (group 1, group 2). -/
def splitSep : List Char → Option (List Char × List Char)
  | [] => none
  | c :: rest =>
    if startsWithList (" b/".data) rest && !(rest.drop 3).isEmpty then
      some ([c], rest.drop 3)
    else
      match splitSep rest with
      | some (g1, g2) => some (c :: g1, g2)
      | none => none

/-- `line.match(/^diff --git a\/(.+?) b\/(.+?)$/)`, returning the destination
path (group 2) that the source keeps. -/
def matchDiffHeader (line : String) : Option String :=
  if startsWithList headerStart line.data then
    match splitSep (line.data.drop headerStart.length) with
    | some (_, g2) => some ⟨g2⟩
    | none => none
  else none

/-- Builds a `FileDiff` record the way `parseFileDiffs` saves one: the content
is the collected lines joined by newlines and the size is its length. -/
def mkFileDiff (path : String) (lines : List String) : FileDiff :=
  let content := joinLines lines
  { file_path := path, diff_content := content, char_count := content.length }

/-- The "save previous file if exists" step of `parseFileDiffs`: a record is
kept only when a current path exists and at least one line was collected. -/
def flushFile (path? : Option String) (lines : List String)
    (acc : List FileDiff) : List FileDiff :=
  match path? with
  | some p => if lines.isEmpty then acc else acc ++ [mkFileDiff p lines]
  | none => acc

/-- The line loop of `parseFileDiffs`: a header line saves the current record
and starts a new one holding the header line (its destination path becomes the
record's path); any other line is appended to the current record; the last
record is saved when the lines run out. -/
def parseLoop : List String → Option String → List String → List FileDiff → List FileDiff
  | [], path?, lines, acc => flushFile path? lines acc
  | l :: ls, path?, lines, acc =>
    match matchDiffHeader l with
    | some dest => parseLoop ls (some dest) [l] (flushFile path? lines acc)
    | none => parseLoop ls path? (lines ++ [l]) acc

/-- `DiffSplitter.parseFileDiffs`. -/
def parseFileDiffs (diffContent : String) : List FileDiff :=
  parseLoop (splitLines diffContent) none [] []

/-- Stable insertion into a size-descending list: the new record goes after
every record strictly larger, and before records of equal size met later. -/
def insertDesc (f : FileDiff) : List FileDiff → List FileDiff
  | [] => [f]
  | g :: gs => if f.char_count < g.char_count then g :: insertDesc f gs else f :: g :: gs

/-- `[...fileDiffs].sort((a, b) => b.char_count - a.char_count)`: JavaScript's
sort is stable, so this is the stable size-descending reordering, which stable
insertion sort computes. -/
def sortBySizeDesc : List FileDiff → List FileDiff
  | [] => []
  | f :: fs => insertDesc f (sortBySizeDesc fs)

/-- The first-fit scan of `groupFilesIntoChunks`: walk the chunks in creation
order and put the file into the first chunk whose size stays within
`maxChunkSize`, appending path, size and a newline-separated content; `none`
when no chunk fits. -/
def placeFile (maxChunkSize : Nat) (fd : FileDiff) :
    List ReviewChunk → Option (List ReviewChunk)
  | [] => none
  | c :: cs =>
    if c.total_chars + fd.char_count ≤ maxChunkSize then
      some ({ c with
                files := c.files ++ [fd.file_path],
                total_chars := c.total_chars + fd.char_count,
                diff_content := c.diff_content ++ "\n" ++ fd.diff_content } :: cs)
    else
      (placeFile maxChunkSize fd cs).map (c :: ·)

/-- One iteration of the packing loop of `groupFilesIntoChunks`: a file larger
than `maxChunkSize` is skipped; otherwise it is placed first-fit, and a new
chunk whose id is the current chunk count is appended when no chunk fits. -/
def packStep (maxChunkSize : Nat) (chunks : List ReviewChunk) (fd : FileDiff) :
    List ReviewChunk :=
  if maxChunkSize < fd.char_count then chunks
  else
    match placeFile maxChunkSize fd chunks with
    | some chunks' => chunks'
    | none =>
      chunks ++ [{ chunk_id := chunks.length, files := [fd.file_path],
                   total_chars := fd.char_count, diff_content := fd.diff_content }]

/-- `DiffSplitter.groupFilesIntoChunks`. -/
def groupFilesIntoChunks (maxChunkSize : Nat) (fileDiffs : List FileDiff) :
    List ReviewChunk :=
  (sortBySizeDesc fileDiffs).foldl (packStep maxChunkSize) []

/-- `DiffSplitter.splitDiff` (the `maxChunkSize` field of the class is passed
explicitly). -/
def splitDiff (maxChunkSize : Nat) (fullDiffContent : String) : List ReviewChunk :=
  if fullDiffContent.length ≤ maxChunkSize then
    [{ chunk_id := 0, files := [], total_chars := fullDiffContent.length,
       diff_content := fullDiffContent }]
  else
    let fileDiffs := parseFileDiffs fullDiffContent
    if fileDiffs.isEmpty then
      [{ chunk_id := 0, files := [], total_chars := fullDiffContent.length,
         diff_content := fullDiffContent }]
    else
      groupFilesIntoChunks maxChunkSize fileDiffs

/-! ### MultiThreadAmpReviewer (the multi-chunk dispatcher)

The external world is abstracted by a settlement oracle
`o : ReviewChunk → Except String ReviewResult`: `.ok r` is a fulfilled
`reviewChunk` promise with value `r`, `.error m` a rejected one whose reason
formats to the message `m`. -/

/-- `MultiThreadAmpReviewer.createBatches`: consecutive slices of at most
`batchSize` items. The source's loop (`for i += batchSize`) does not terminate
for `batchSize = 0`, so the model is only meaningful for positive sizes; every
theorem that uses it assumes `0 < batchSize`. -/
def createBatches (items : List α) (batchSize : Nat) : List (List α) :=
  match items with
  | [] => []
  | x :: xs =>
    if _h : batchSize = 0 then []
    else
      (x :: xs).take batchSize ::
        createBatches ((x :: xs).drop batchSize) batchSize
termination_by items.length
decreasing_by
  simp only [List.length_drop, List.length_cons]
  omega

/-- Whether a settlement is a rejection. -/
def isRejected (e : Except String ReviewResult) : Bool :=
  match e with
  | .error _ => true
  | .ok _ => false

/-- The `batchResults.forEach` accumulation over one batch: a fulfilled chunk
appends a `ChunkResult` keeping its id and files, a rejected one appends a
`ChunkError` keeping its id, files and the rejection message. -/
def settleList (o : ReviewChunk → Except String ReviewResult) :
    List ReviewChunk → List ChunkResult × List ChunkError
  | [] => ([], [])
  | c :: cs =>
    let rest := settleList o cs
    match o c with
    | .ok r => (⟨c.chunk_id, c.files, r⟩ :: rest.1, rest.2)
    | .error m => (rest.1, ⟨c.chunk_id, c.files, m⟩ :: rest.2)

/-- The batch loop of `multiThreadReview`: batches are awaited one after the
other (`await Promise.allSettled` per batch), their outcomes appended in
order. -/
def settleBatches (o : ReviewChunk → Except String ReviewResult)
    (batches : List (List ReviewChunk)) : List ChunkResult × List ChunkError :=
  batches.foldl
    (fun acc batch =>
      let settled := settleList o batch
      (acc.1 ++ settled.1, acc.2 ++ settled.2))
    ([], [])

/-- The note appended to the combined text when some chunks failed. -/
def partialNote : String := "\n\n**Note:** Some files could not be processed."

/-- The separator joining per-chunk review texts. -/
def reviewSeparator : String := "\n\n---\n\n"

/-- The `allIssues` accumulation: only successful chunk results with a defined
`issues` field contribute (an empty array is defined, hence truthy). -/
def collectIssues (results : List ChunkResult) : List ReviewIssue :=
  results.foldl
    (fun acc cr =>
      match cr.result.success, cr.result.issues with
      | true, some l => acc ++ l
      | _, _ => acc)
    []

/-- The `allStructuredIssues` accumulation: every defined `structured_issues`
field contributes, successful or not. -/
def collectStructured (results : List ChunkResult) : List ReviewIssue :=
  results.foldl
    (fun acc cr =>
      match cr.result.structured_issues with
      | some l => acc ++ l
      | none => acc)
    []

/-- The `threadIds` accumulation. -/
def collectThreadIds (results : List ChunkResult) : List String :=
  results.foldl
    (fun acc cr =>
      match cr.result.thread_ids with
      | some l => acc ++ l
      | none => acc)
    []

/-- The `finalReviewParts` accumulation: a defined but empty review text is
falsy in JavaScript and contributes nothing. -/
def collectReviewParts (results : List ChunkResult) : List String :=
  results.foldl
    (fun acc cr =>
      match cr.result.final_review with
      | some s => if s = "" then acc else acc ++ [s]
      | none => acc)
    []

/-- The `summaryStats` object of `aggregateResults`. -/
def summaryStats (results : List ChunkResult) (errors : List ChunkError) :
    SummaryStats :=
  { total_files_reviewed := results.foldl (fun sum r => sum + r.files.length) 0,
    chunks_processed := results.length,
    chunks_failed := errors.length,
    total_issues := (collectStructured results).length,
    thread_ids := collectThreadIds results }

/-- The `combinedFinalReview` string: parts joined by the visible separator,
with the partial-failure note appended when any chunk failed; empty when no
part was collected. -/
def combinedFinalReview (results : List ChunkResult) (errors : List ChunkError) :
    String :=
  let parts := collectReviewParts results
  if parts.isEmpty then ""
  else
    String.intercalate reviewSeparator parts ++
      (if errors.isEmpty then "" else partialNote)

/-- `MultiThreadAmpReviewer.aggregateResults` (console logging omitted). -/
def aggregateResults (results : List ChunkResult) (errors : List ChunkError) :
    ReviewResult :=
  let allIssues := collectIssues results
  let allStructuredIssues := collectStructured results
  let threadIds := collectThreadIds results
  let combined := combinedFinalReview results errors
  if !errors.isEmpty && results.isEmpty then
    { success := false,
      error := some s!"All {errors.length} chunks failed",
      issues := none,
      structured_issues := none,
      stats := some (summaryStats results errors) }
  else
    { success := true,
      issues := if allIssues.isEmpty then none else some allIssues,
      structured_issues :=
        if allStructuredIssues.isEmpty then none else some allStructuredIssues,
      final_review := if combined = "" then none else some combined,
      thread_ids := if threadIds.isEmpty then none else some threadIds,
      stats := some (summaryStats results errors),
      partial_failures := if errors.isEmpty then none else some errors }

/-- `MultiThreadAmpReviewer.multiThreadReview`: batches of `maxConcurrent`
chunks are dispatched concurrently and awaited batch by batch, then the
settled outcomes are aggregated. -/
def multiThreadReview (maxConcurrent : Nat)
    (o : ReviewChunk → Except String ReviewResult)
    (chunks : List ReviewChunk) : ReviewResult :=
  let settled := settleBatches o (createBatches chunks maxConcurrent)
  aggregateResults settled.1 settled.2

/-! ### AmpReviewer (src/review/amp-reviewer.ts)

The CLI execution and temp-file I/O are abstracted by the run outcome: `.ok`
carries what the success path of the try block reads and extracts (result-file
text, thread id, extracted issues), `.error m` is any exception thrown inside
the try block, whose message is `m`. -/

/-- What the success path of `AmpReviewer.reviewDiff` obtains from the world:
the result file's text (empty when the file does not exist), the thread id the
`Thread: https://ampcode.com/threads/(T-...)` pattern extracts from it, and
the issues `extractIssues` parses from its JSON blocks. -/
structure AmpRunOutcome where
  finalReviewText : String
  threadId : Option String
  extractedIssues : List ReviewIssue
deriving DecidableEq, Repr

/-- `AmpReviewer.reviewDiff` after its suspension points are resolved: every
outcome, exceptional or not, maps to a `ReviewResult` — the catch block turns
an exception whose message mentions "timeout" into the timeout failure result
and any other exception into a failure result carrying its message, so the
promise never rejects. -/
def ampReviewDiff (timeoutMs : Nat) (run : Except String AmpRunOutcome) :
    ReviewResult :=
  match run with
  | .ok r =>
    let structuredIssues :=
      if r.finalReviewText.trim = "" then [] else r.extractedIssues
    { success := true,
      issues :=
        if structuredIssues.isEmpty then none
        else some [{ path := "", line := 0, line_type := .ADDED,
                     message := r.finalReviewText, suggested_fix := none }],
      structured_issues := some structuredIssues,
      final_review := some r.finalReviewText,
      thread_ids := r.threadId.map (fun t => [t]) }
  | .error msg =>
    if hasSubstring ("timeout".data) msg.data then
      { success := false,
        error := some s!"Review timeout after {timeoutMs / 1000}s",
        issues := none }
    else
      { success := false, error := some msg, issues := none }

/-! ### ReviewJobQueue (src/review/review-queue.ts)

The job table is an insertion-ordered association list (a JavaScript `Map`);
`enqueueReview` is embedded with JavaScript's synchronous semantics: the call
`this.processReview(jobId, ...)` runs the body of `processReview` up to its
first `await` before `enqueueReview` returns the job id. -/

/-- `JOB_STATUS` from types.ts. -/
inductive JobStatus where
  | queued
  | running
  | completed
  | failed
deriving DecidableEq, Repr

/-- The job record `enqueueReview` stores (the JobInfo literal of the source:
status, creation time, the MR iid, and the fields later phases fill in). -/
structure JobInfo where
  status : JobStatus
  created : Nat
  mr_iid : Nat
  started : Option Nat := none
  completed : Option Nat := none
  error : Option String := none
deriving DecidableEq, Repr

/-- `last_commit` of the webhook payload. -/
structure LastCommit where
  id : String
deriving DecidableEq, Repr

/-- `object_attributes` of the webhook payload (the fields the queue reads). -/
structure ObjectAttributes where
  iid : Nat
  last_commit : LastCommit
deriving DecidableEq, Repr

/-- `project` of the webhook payload (the fields the queue reads). -/
structure ProjectInfo where
  id : Nat
  web_url : String
deriving DecidableEq, Repr

/-- The webhook payload fields `ReviewJobQueue` reads. -/
structure MREvent where
  object_attributes : ObjectAttributes
  project : ProjectInfo
deriving DecidableEq, Repr

/-- The queue's state: the `jobs` map in insertion order, the `processing`
set, and the configured capacity. -/
structure QueueState where
  jobs : List (String × JobInfo)
  processing : List String
  maxQueueSize : Nat
deriving DecidableEq, Repr

/-- `Map.get`: the value stored under a key. -/
def jobsLookup : List (String × JobInfo) → String → Option JobInfo
  | [], _ => none
  | (k, v) :: rest, key => if k = key then some v else jobsLookup rest key

/-- `Map.set` on an existing key: the stored record is replaced in place (the
source mutates the record object through the reference `job`). -/
def jobsUpdate (jobs : List (String × JobInfo)) (key : String)
    (f : JobInfo → JobInfo) : List (String × JobInfo) :=
  jobs.map (fun kv => if kv.1 = key then (kv.1, f kv.2) else kv)

/-- The error thrown by `enqueueReview` when the queue is at capacity
(`QueueFullError`, a subclass of `Error` named after itself). -/
structure QueueFullError where
  message : String
deriving DecidableEq, Repr

/-- Lines 35–40 of enqueueReview: a fresh id is bound to a record created in
status `queued` with the creation time and the payload's MR iid. -/
def enqueueInsert (q : QueueState) (jobId : String) (now : Nat)
    (payload : MREvent) : QueueState :=
  { q with
      jobs := q.jobs ++
        [(jobId, { status := .queued, created := now,
                   mr_iid := payload.object_attributes.iid })] }

/-- The synchronous prefix of `processReview` — everything its body runs
before the first `await`: the job is looked up (aborting if absent), marked
running with a start time, and the MR fields are read; when one is missing
(falsy: iid 0, project id 0 or empty commit sha) the job is marked failed with
the input error before the body suspends awaiting the failure commit status;
otherwise the body suspends awaiting the diff fetch with the job running. -/
def processReviewSyncPrefix (q : QueueState) (jobId : String) (now : Nat)
    (payload : MREvent) : QueueState :=
  match jobsLookup q.jobs jobId with
  | none => q
  | some _ =>
    let q1 := { q with processing := q.processing ++ [jobId] }
    let q2 := { q1 with
                  jobs := jobsUpdate q1.jobs jobId
                    (fun j => { j with status := .running, started := some now }) }
    if payload.object_attributes.iid = 0 ∨ payload.project.id = 0 ∨
        payload.object_attributes.last_commit.id = "" then
      { q2 with
          jobs := jobsUpdate q2.jobs jobId
            (fun j => { j with status := .failed,
                               error := some "Missing required MR information" }) }
    else q2

/-- `ReviewJobQueue.enqueueReview` with JavaScript's synchronous semantics: at
capacity it throws `QueueFullError` before any record is created; otherwise it
records the queued job, runs the synchronous prefix of the detached
`processReview` call, and returns the job id. The pair keeps the resulting
table so that the throwing case demonstrably leaves it unchanged. -/
def enqueueReview (q : QueueState) (jobId : String) (now : Nat)
    (payload : MREvent) : Except QueueFullError String × QueueState :=
  if q.maxQueueSize ≤ q.jobs.length then
    (.error { message := s!"Review queue is full (max: {q.maxQueueSize})" }, q)
  else
    let q1 := enqueueInsert q jobId now payload
    let q2 := processReviewSyncPrefix q1 jobId now payload
    (.ok jobId, q2)

/-- `ReviewJobQueue.getJobStatus`. -/
def getJobStatus (q : QueueState) (jobId : String) : Option JobInfo :=
  jobsLookup q.jobs jobId

/-! ### Helper lemmas: the job table -/

theorem jobsLookup_append_of_none :
    ∀ (l : List (String × JobInfo)) (k : String), jobsLookup l k = none →
      ∀ v, jobsLookup (l ++ [(k, v)]) k = some v
  | [], k, _, v => by simp [jobsLookup]
  | (k', v') :: rest, k, h, v => by
    by_cases hk : k' = k
    · simp only [jobsLookup, hk, if_pos rfl] at h
      cases h
    · simp only [jobsLookup, if_neg hk] at h
      simpa [jobsLookup, if_neg hk] using jobsLookup_append_of_none rest k h v

theorem jobsLookup_jobsUpdate_self :
    ∀ (l : List (String × JobInfo)) (k : String) (f : JobInfo → JobInfo),
      jobsLookup (jobsUpdate l k f) k = (jobsLookup l k).map f
  | [], _, _ => by simp [jobsLookup, jobsUpdate]
  | (k', v') :: rest, k, f => by
    show jobsLookup ((if k' = k then (k', f v') else (k', v')) :: jobsUpdate rest k f) k
        = (if k' = k then some v' else jobsLookup rest k).map f
    by_cases hk : k' = k
    · rw [if_pos hk, if_pos hk]
      show (if k' = k then some (f v') else _) = some (f v')
      rw [if_pos hk]
    · rw [if_neg hk, if_neg hk]
      show (if k' = k then some v' else jobsLookup (jobsUpdate rest k f) k)
          = (jobsLookup rest k).map f
      rw [if_neg hk]
      exact jobsLookup_jobsUpdate_self rest k f

theorem jobsUpdate_length (l : List (String × JobInfo)) (k : String)
    (f : JobInfo → JobInfo) : (jobsUpdate l k f).length = l.length := by
  simp [jobsUpdate]

theorem processReviewSyncPrefix_jobs_length (q : QueueState) (jobId : String)
    (now : Nat) (payload : MREvent) :
    (processReviewSyncPrefix q jobId now payload).jobs.length = q.jobs.length := by
  unfold processReviewSyncPrefix
  cases jobsLookup q.jobs jobId with
  | none => rfl
  | some j =>
    simp only
    split <;> simp [jobsUpdate_length]

/-! ### Helper lemmas: batching -/

theorem createBatches_flatten {α : Type} (k : Nat) (hk : 0 < k) :
    ∀ l : List α, (createBatches l k).flatten = l := by
  intro l
  induction l, k using createBatches.induct with
  | case1 k => simp [createBatches]
  | case2 x xs => omega
  | case3 k x xs hne ih =>
    rw [createBatches]
    simp only [dif_neg hne, List.flatten_cons, ih (Nat.pos_of_ne_zero hne),
      List.take_append_drop]

theorem createBatches_batch_length_le {α : Type} (k : Nat) :
    ∀ (l : List α), ∀ b ∈ createBatches l k, b.length ≤ k := by
  intro l
  induction l, k using createBatches.induct with
  | case1 k => simp [createBatches]
  | case2 x xs => simp [createBatches]
  | case3 k x xs hne ih =>
    rw [createBatches]
    simp only [dif_neg hne, List.mem_cons]
    rintro b (rfl | hb)
    · simp [List.length_take_le]
    · exact ih b hb

/-! ### Claim C3: single-chunk fast path -/

/-- C3: for every diff text whose length is at most `maxChunkSize`,
`DiffSplitter.splitDiff` returns exactly one chunk whose `diff_content` is the
input verbatim, with `chunk_id = 0`, `total_chars` the input length and an
empty `files` list. -/
theorem splitDiff_fast_path (maxChunkSize : Nat) (d : String)
    (h : d.length ≤ maxChunkSize) :
    splitDiff maxChunkSize d =
      [{ chunk_id := 0, files := [], total_chars := d.length,
         diff_content := d }] := by
  simp [splitDiff, h]

/-- Witness for C3 at a concrete input. -/
theorem splitDiff_fast_path_witness :
    ("hello".length ≤ 10 ∧
      splitDiff 10 "hello" =
        [{ chunk_id := 0, files := [], total_chars := 5,
           diff_content := "hello" }]) :=
  ⟨by decide, (splitDiff_fast_path 10 "hello" (by decide)).trans (by decide)⟩

/-! ### Claim C4: queue capacity -/

/-- C4: below capacity, `enqueueReview` succeeds and adds exactly one record,
created in status `queued`; once `maxQueueSize` jobs are tracked, the next
enqueue throws a `QueueFullError` carrying the configured capacity before any
record is created, leaving the job table unchanged. -/
theorem enqueueReview_capacity (q : QueueState) (jobId : String) (now : Nat)
    (payload : MREvent) :
    (q.jobs.length < q.maxQueueSize →
      (enqueueReview q jobId now payload).1 = .ok jobId ∧
      (enqueueReview q jobId now payload).2.jobs.length = q.jobs.length + 1 ∧
      (enqueueInsert q jobId now payload).jobs =
        q.jobs ++ [(jobId, { status := .queued, created := now,
                             mr_iid := payload.object_attributes.iid })]) ∧
    (q.maxQueueSize ≤ q.jobs.length →
      enqueueReview q jobId now payload =
        (.error { message := s!"Review queue is full (max: {q.maxQueueSize})" },
          q)) := by
  constructor
  · intro hlt
    have hnot : ¬ q.maxQueueSize ≤ q.jobs.length := by omega
    refine ⟨?_, ?_, rfl⟩
    · simp [enqueueReview, if_neg hnot]
    · simp only [enqueueReview, if_neg hnot]
      rw [processReviewSyncPrefix_jobs_length]
      simp [enqueueInsert]
  · intro hge
    simp [enqueueReview, if_pos hge]

/-- The concrete payload used by the queue witnesses: complete MR
information. -/
def cPayload : MREvent :=
  { object_attributes := { iid := 7, last_commit := { id := "abc" } },
    project := { id := 3, web_url := "u" } }

/-- A concrete empty queue of capacity 1. -/
def cQueue1 : QueueState := { jobs := [], processing := [], maxQueueSize := 1 }

/-- A concrete empty queue of capacity 4. -/
def cQueue4 : QueueState := { jobs := [], processing := [], maxQueueSize := 4 }

/-- Witness for C4: with capacity 1, the first enqueue on the empty table
succeeds and the next enqueue (on the now-full table) throws, leaving the
table unchanged. -/
theorem enqueueReview_capacity_witness :
    (cQueue1.jobs.length < cQueue1.maxQueueSize ∧
      (enqueueReview cQueue1 "a" 5 cPayload).1 = .ok "a") ∧
    ((enqueueReview cQueue1 "a" 5 cPayload).2.maxQueueSize ≤
        (enqueueReview cQueue1 "a" 5 cPayload).2.jobs.length ∧
      enqueueReview (enqueueReview cQueue1 "a" 5 cPayload).2 "b" 6 cPayload =
        (.error ⟨"Review queue is full (max: 1)"⟩,
          (enqueueReview cQueue1 "a" 5 cPayload).2)) :=
  ⟨⟨by decide,
    ((enqueueReview_capacity cQueue1 "a" 5 cPayload).1 (by decide)).1⟩,
   by decide,
   ((enqueueReview_capacity (enqueueReview cQueue1 "a" 5 cPayload).2 "b" 6
      cPayload).2 (by decide)).trans (by rfl)⟩

/-- The job record visible under `jobId` right after the synchronous prefix of
`processReview` ran over a table containing `j0` at `jobId`: marked running,
and additionally marked failed when the payload misses MR information. -/
theorem processReviewSyncPrefix_lookup (q : QueueState) (jobId : String)
    (now : Nat) (p : MREvent) (j0 : JobInfo)
    (h : jobsLookup q.jobs jobId = some j0) :
    jobsLookup (processReviewSyncPrefix q jobId now p).jobs jobId =
      some (if p.object_attributes.iid = 0 ∨ p.project.id = 0 ∨
              p.object_attributes.last_commit.id = "" then
              { j0 with status := .failed, started := some now,
                        error := some "Missing required MR information" }
            else { j0 with status := .running, started := some now }) := by
  unfold processReviewSyncPrefix
  rw [h]
  by_cases hvalid : p.object_attributes.iid = 0 ∨ p.project.id = 0 ∨
      p.object_attributes.last_commit.id = ""
  · rw [if_pos hvalid, if_pos hvalid]
    simp only [jobsLookup_jobsUpdate_self, h]
    rfl
  · rw [if_neg hvalid, if_neg hvalid]
    simp only [jobsLookup_jobsUpdate_self, h]
    rfl

/-! ### Claim C5: the status observed immediately after enqueue

The claim asserts the job is observed in status `queued`. The code contradicts
it: a JavaScript async function body runs synchronously until its first
`await`, and `processReview` marks the job `running` (or `failed`, when the
payload misses required MR information) before reaching its first `await`,
during the un-awaited call inside `enqueueReview`. So a query right after
enqueue always finds the job, but never in status `queued`. -/

/-- Counterexample to C5 as stated: on an empty queue of capacity 4, a status
query immediately after a successful enqueue of a payload with complete MR
information observes status `running`, not `queued`. -/
theorem enqueue_then_status_not_queued :
    (enqueueReview cQueue4 "job-1" 100 cPayload).1 = .ok "job-1" ∧
    getJobStatus (enqueueReview cQueue4 "job-1" 100 cPayload).2 "job-1" =
      some { status := .running, created := 100, mr_iid := 7,
             started := some 100 } ∧
    JobStatus.running ≠ JobStatus.queued :=
  ⟨by rfl, by decide, by decide⟩

/-- C5 as amended: a status query immediately after a successful enqueue (of a
fresh job id) never observes "not found" for the returned id, but the observed
status is `running` when the payload carries complete MR information and
`failed` when it does not — never `queued` (overwritten synchronously before
`enqueueReview` returns) and never `completed`. -/
theorem enqueue_then_status (q : QueueState) (jobId : String) (now : Nat)
    (payload : MREvent) (hcap : q.jobs.length < q.maxQueueSize)
    (hfresh : jobsLookup q.jobs jobId = none) :
    (enqueueReview q jobId now payload).1 = .ok jobId ∧
    getJobStatus (enqueueReview q jobId now payload).2 jobId =
      some (if payload.object_attributes.iid = 0 ∨ payload.project.id = 0 ∨
              payload.object_attributes.last_commit.id = "" then
              { status := .failed, created := now,
                mr_iid := payload.object_attributes.iid,
                started := some now,
                error := some "Missing required MR information" }
            else
              { status := .running, created := now,
                mr_iid := payload.object_attributes.iid,
                started := some now }) ∧
    (∀ j, getJobStatus (enqueueReview q jobId now payload).2 jobId = some j →
      j.status ≠ .queued ∧ j.status ≠ .completed) := by
  have hnot : ¬ q.maxQueueSize ≤ q.jobs.length := by omega
  have hq1 : jobsLookup (enqueueInsert q jobId now payload).jobs jobId =
      some { status := .queued, created := now,
             mr_iid := payload.object_attributes.iid } :=
    jobsLookup_append_of_none q.jobs jobId hfresh _
  have hstat : getJobStatus (enqueueReview q jobId now payload).2 jobId =
      some (if payload.object_attributes.iid = 0 ∨ payload.project.id = 0 ∨
              payload.object_attributes.last_commit.id = "" then
              { status := .failed, created := now,
                mr_iid := payload.object_attributes.iid,
                started := some now,
                error := some "Missing required MR information" }
            else
              { status := .running, created := now,
                mr_iid := payload.object_attributes.iid,
                started := some now }) := by
    simp only [enqueueReview, if_neg hnot, getJobStatus]
    exact processReviewSyncPrefix_lookup _ jobId now payload _ hq1
  refine ⟨by simp [enqueueReview, if_neg hnot], hstat, ?_⟩
  intro j hj
  rw [hstat] at hj
  by_cases hvalid : payload.object_attributes.iid = 0 ∨ payload.project.id = 0 ∨
      payload.object_attributes.last_commit.id = ""
  · rw [if_pos hvalid] at hj
    cases hj
    exact ⟨fun hcon => (nomatch hcon), fun hcon => (nomatch hcon)⟩
  · rw [if_neg hvalid] at hj
    cases hj
    exact ⟨fun hcon => (nomatch hcon), fun hcon => (nomatch hcon)⟩

/-- Witness for the amended C5 at a concrete input. -/
theorem enqueue_then_status_witness :
    (cQueue4.jobs.length < cQueue4.maxQueueSize ∧
      jobsLookup cQueue4.jobs "job-1" = none) ∧
    (∀ j, getJobStatus (enqueueReview cQueue4 "job-1" 100 cPayload).2 "job-1" =
        some j → j.status ≠ .queued ∧ j.status ≠ .completed) :=
  ⟨⟨by decide, by decide⟩,
   (enqueue_then_status cQueue4 "job-1" 100 cPayload (by decide)
      (by decide)).2.2⟩

/-! ### Helper lemmas: settlement of chunk reviews -/

theorem settleList_append (o : ReviewChunk → Except String ReviewResult) :
    ∀ l1 l2 : List ReviewChunk,
      settleList o (l1 ++ l2) =
        ((settleList o l1).1 ++ (settleList o l2).1,
         (settleList o l1).2 ++ (settleList o l2).2)
  | [], l2 => by simp [settleList]
  | c :: cs, l2 => by
    simp only [List.cons_append, settleList]
    cases o c <;> simp [settleList_append o cs l2]

theorem settleBatches_go (o : ReviewChunk → Except String ReviewResult) :
    ∀ (bs : List (List ReviewChunk)) (acc : List ChunkResult × List ChunkError),
      bs.foldl
        (fun acc batch =>
          let settled := settleList o batch
          (acc.1 ++ settled.1, acc.2 ++ settled.2)) acc =
      (acc.1 ++ (settleList o bs.flatten).1, acc.2 ++ (settleList o bs.flatten).2)
  | [], acc => by simp [settleList]
  | b :: bs, acc => by
    simp only [List.foldl_cons, settleBatches_go o bs, List.flatten_cons,
      settleList_append, List.append_assoc]

theorem settleBatches_eq_settleList (o : ReviewChunk → Except String ReviewResult)
    (batches : List (List ReviewChunk)) :
    settleBatches o batches = settleList o batches.flatten := by
  unfold settleBatches
  rw [settleBatches_go]
  simp

/-- Under a positive concurrency limit, batching is transparent to the settled
outcome: the dispatcher aggregates the chunk-by-chunk settlement of the whole
list. -/
theorem multiThreadReview_eq (k : Nat) (hk : 0 < k)
    (o : ReviewChunk → Except String ReviewResult) (chunks : List ReviewChunk) :
    multiThreadReview k o chunks =
      aggregateResults (settleList o chunks).1 (settleList o chunks).2 := by
  unfold multiThreadReview
  rw [settleBatches_eq_settleList, createBatches_flatten k hk]

theorem settleList_fst (o : ReviewChunk → Except String ReviewResult) :
    ∀ l : List ReviewChunk,
      (settleList o l).1 = l.filterMap (fun c =>
        match o c with
        | .ok r => some ⟨c.chunk_id, c.files, r⟩
        | .error _ => none)
  | [] => rfl
  | c :: cs => by
    simp only [settleList, List.filterMap_cons]
    cases o c <;> simp [settleList_fst o cs]

theorem settleList_snd (o : ReviewChunk → Except String ReviewResult) :
    ∀ l : List ReviewChunk,
      (settleList o l).2 = l.filterMap (fun c =>
        match o c with
        | .error m => some ⟨c.chunk_id, c.files, m⟩
        | .ok _ => none)
  | [] => rfl
  | c :: cs => by
    simp only [settleList, List.filterMap_cons]
    cases o c <;> simp [settleList_snd o cs]

theorem settleList_length (o : ReviewChunk → Except String ReviewResult) :
    ∀ l : List ReviewChunk,
      (settleList o l).1.length + (settleList o l).2.length = l.length
  | [] => rfl
  | c :: cs => by
    have ih := settleList_length o cs
    simp only [settleList]
    cases o c <;> simp only [List.length_cons] <;> omega

theorem settleList_snd_length (o : ReviewChunk → Except String ReviewResult) :
    ∀ l : List ReviewChunk,
      (settleList o l).2.length = l.countP (fun c => isRejected (o c))
  | [] => rfl
  | c :: cs => by
    simp only [settleList, List.countP_cons]
    cases h : o c <;>
      simp [isRejected, h, settleList_snd_length o cs]

/-! ### Claim C1: aggregation over fulfilled and rejected chunk reviews -/

/-- The `ChunkError` list a settlement oracle induces over a chunk list, in
order: one entry per rejected chunk carrying its id, files and message. -/
def chunkErrorsOf (o : ReviewChunk → Except String ReviewResult)
    (chunks : List ReviewChunk) : List ChunkError :=
  chunks.filterMap (fun c =>
    match o c with
    | .error m => some ⟨c.chunk_id, c.files, m⟩
    | .ok _ => none)

/-- The number of rejected chunk reviews under a settlement oracle. -/
def rejectedCount (o : ReviewChunk → Except String ReviewResult)
    (chunks : List ReviewChunk) : Nat :=
  chunks.countP (fun c => isRejected (o c))

theorem chunkErrorsOf_length (o : ReviewChunk → Except String ReviewResult)
    (chunks : List ReviewChunk) :
    (chunkErrorsOf o chunks).length = rejectedCount o chunks := by
  rw [chunkErrorsOf, ← settleList_snd, settleList_snd_length]
  rfl

/-- C1: over `N ≥ 2` chunks with `f` rejections and `N - f` fulfillments,
the aggregated result has `success = false` with an error message summarizing
the failure count and no partial text or issues when `f = N`; `success = true`
with `partial_failures` holding exactly the `f` rejected chunks' ids, files
and messages when `0 < f < N`; and `success = true` with `partial_failures`
absent when `f = 0`. -/
theorem multiThreadReview_aggregation (k : Nat) (hk : 0 < k)
    (o : ReviewChunk → Except String ReviewResult) (chunks : List ReviewChunk)
    (hN : 2 ≤ chunks.length) :
    (rejectedCount o chunks = chunks.length →
      (multiThreadReview k o chunks).success = false ∧
      (multiThreadReview k o chunks).error =
        some s!"All {rejectedCount o chunks} chunks failed" ∧
      (multiThreadReview k o chunks).issues = none ∧
      (multiThreadReview k o chunks).structured_issues = none ∧
      (multiThreadReview k o chunks).final_review = none ∧
      (multiThreadReview k o chunks).partial_failures = none) ∧
    (0 < rejectedCount o chunks → rejectedCount o chunks < chunks.length →
      (multiThreadReview k o chunks).success = true ∧
      (multiThreadReview k o chunks).partial_failures =
        some (chunkErrorsOf o chunks) ∧
      (chunkErrorsOf o chunks).length = rejectedCount o chunks) ∧
    (rejectedCount o chunks = 0 →
      (multiThreadReview k o chunks).success = true ∧
      (multiThreadReview k o chunks).partial_failures = none) := by
  have hmt := multiThreadReview_eq k hk o chunks
  have hlen := settleList_length o chunks
  have hcnt : (settleList o chunks).2.length = rejectedCount o chunks :=
    settleList_snd_length o chunks
  have herr : (settleList o chunks).2 = chunkErrorsOf o chunks :=
    settleList_snd o chunks
  rw [hmt]
  refine ⟨?_, ?_, ?_⟩
  · intro hall
    have hres : (settleList o chunks).1 = [] := by
      have : (settleList o chunks).1.length = 0 := by omega
      exact List.length_eq_zero.mp this
    have herrne : (settleList o chunks).2.isEmpty = false := by
      rw [List.isEmpty_eq_false_iff_exists_mem]
      have hpos : 0 < (settleList o chunks).2.length := by omega
      exact List.exists_mem_of_length_pos hpos
    simp [aggregateResults, hres, herrne, hcnt]
  · intro hpos hlt
    have hresne : (settleList o chunks).1.isEmpty = false := by
      rw [List.isEmpty_eq_false_iff_exists_mem]
      have : 0 < (settleList o chunks).1.length := by omega
      exact List.exists_mem_of_length_pos this
    have herrne : (settleList o chunks).2.isEmpty = false := by
      rw [List.isEmpty_eq_false_iff_exists_mem]
      have : 0 < (settleList o chunks).2.length := by omega
      exact List.exists_mem_of_length_pos this
    refine ⟨?_, ?_, chunkErrorsOf_length o chunks⟩
    · simp [aggregateResults, hresne, herrne]
    · simp only [aggregateResults, hresne, herrne, Bool.not_false, Bool.and_self,
        if_false, Bool.true_and, herr]
      rw [if_neg (by rw [← herr]; intro hnil; rw [hnil] at herrne; simp at herrne :
        ¬ (chunkErrorsOf o chunks).isEmpty = true)]
      simp
  · intro hzero
    have herrnil : (settleList o chunks).2 = [] := by
      have : (settleList o chunks).2.length = 0 := by omega
      exact List.length_eq_zero.mp this
    simp [aggregateResults, herrnil]

/-- A concrete chunk used by dispatcher witnesses. -/
def wChunkA : ReviewChunk := ⟨0, ["a"], 1, "x"⟩

/-- A second concrete chunk used by dispatcher witnesses. -/
def wChunkB : ReviewChunk := ⟨1, ["b"], 1, "y"⟩

/-- A concrete settlement oracle: chunk 0 fulfills, every other chunk
rejects. -/
def wOracle : ReviewChunk → Except String ReviewResult :=
  fun c => if c.chunk_id = 0 then .ok { success := true } else .error "boom"

/-- Witness for C1 with `N = 2`, `f = 1`: success with exactly one
partial-failure entry carrying the rejected chunk's id, files and message. -/
theorem multiThreadReview_aggregation_witness :
    ((0 : Nat) < 2 ∧ 2 ≤ ([wChunkA, wChunkB] : List ReviewChunk).length ∧
      0 < rejectedCount wOracle [wChunkA, wChunkB] ∧
      rejectedCount wOracle [wChunkA, wChunkB] <
        ([wChunkA, wChunkB] : List ReviewChunk).length) ∧
    (multiThreadReview 2 wOracle [wChunkA, wChunkB]).success = true ∧
    (multiThreadReview 2 wOracle [wChunkA, wChunkB]).partial_failures =
      some [⟨1, ["b"], "boom"⟩] :=
  ⟨⟨by decide, by decide, by decide, by decide⟩,
   by
     have h := (multiThreadReview_aggregation 2 (by decide) wOracle
       [wChunkA, wChunkB] (by decide)).2.1 (by decide) (by decide)
     exact ⟨h.1, h.2.1.trans (by decide)⟩⟩

/-! ### Claim C9: AmpReviewer.reviewDiff never rejects -/

/-- C9: `AmpReviewer.reviewDiff` is total over review failures — every
internal exception becomes a fulfilled `{ success := false, error := … }`
result (with the timeout wording when the message mentions "timeout"), so in
the multi-chunk dispatcher such a chunk settles as fulfilled: it is counted
among processed chunks and produces no `partial_failures` entry. -/
theorem ampReviewDiff_never_rejects (t : Nat) (msg : String) (k : Nat)
    (hk : 0 < k) (chunks : List ReviewChunk) :
    (ampReviewDiff t (.error msg)).success = false ∧
    (ampReviewDiff t (.error msg)).error =
      some (if hasSubstring ("timeout".data) msg.data then
              s!"Review timeout after {t / 1000}s" else msg) ∧
    (multiThreadReview k (fun _ => .ok (ampReviewDiff t (.error msg)))
        chunks).partial_failures = none ∧
    (multiThreadReview k (fun _ => .ok (ampReviewDiff t (.error msg)))
        chunks).stats.map SummaryStats.chunks_processed = some chunks.length ∧
    (multiThreadReview k (fun _ => .ok (ampReviewDiff t (.error msg)))
        chunks).stats.map SummaryStats.chunks_failed = some 0 := by
  have hsnd : (settleList (fun _ => .ok (ampReviewDiff t (.error msg)))
      chunks).2 = [] := by
    rw [settleList_snd]
    simp
  have hfst : (settleList (fun _ => .ok (ampReviewDiff t (.error msg)))
      chunks).1.length = chunks.length := by
    have h := settleList_length (fun _ => .ok (ampReviewDiff t (.error msg))) chunks
    rw [hsnd] at h
    simpa using h
  refine ⟨?_, ?_, ?_, ?_, ?_⟩
  · cases hts : hasSubstring ("timeout".data) msg.data <;>
      simp [ampReviewDiff, hts]
  · cases hts : hasSubstring ("timeout".data) msg.data <;>
      simp [ampReviewDiff, hts]
  · rw [multiThreadReview_eq k hk, hsnd]
    simp [aggregateResults]
  · rw [multiThreadReview_eq k hk, hsnd]
    simp [aggregateResults, summaryStats, hfst]
  · rw [multiThreadReview_eq k hk, hsnd]
    simp [aggregateResults, summaryStats]

/-- Witness for C9 at a concrete timeout-mentioning exception over two
chunks. -/
theorem ampReviewDiff_never_rejects_witness :
    (0 : Nat) < 1 ∧
    (ampReviewDiff 5000 (.error "spawn timeout")).success = false ∧
    (multiThreadReview 1
        (fun _ => .ok (ampReviewDiff 5000 (.error "spawn timeout")))
        [wChunkA, wChunkB]).partial_failures = none ∧
    (multiThreadReview 1
        (fun _ => .ok (ampReviewDiff 5000 (.error "spawn timeout")))
        [wChunkA, wChunkB]).stats.map SummaryStats.chunks_processed = some 2 :=
  ⟨by decide,
   (ampReviewDiff_never_rejects 5000 "spawn timeout" 1 (by decide)
      [wChunkA, wChunkB]).1,
   (ampReviewDiff_never_rejects 5000 "spawn timeout" 1 (by decide)
      [wChunkA, wChunkB]).2.2.1,
   ((ampReviewDiff_never_rejects 5000 "spawn timeout" 1 (by decide)
      [wChunkA, wChunkB]).2.2.2.1).trans (by decide)⟩

/-! ### Helper lemmas: the stable size-descending sort -/

theorem insertDesc_perm (f : FileDiff) :
    ∀ l : List FileDiff, (insertDesc f l).Perm (f :: l)
  | [] => List.Perm.refl _
  | g :: gs => by
    unfold insertDesc
    by_cases h : f.char_count < g.char_count
    · rw [if_pos h]
      exact ((insertDesc_perm f gs).cons g).trans (List.Perm.swap f g gs)
    · rw [if_neg h]

theorem sortBySizeDesc_perm :
    ∀ l : List FileDiff, (sortBySizeDesc l).Perm l
  | [] => List.Perm.refl _
  | f :: fs =>
    (insertDesc_perm f (sortBySizeDesc fs)).trans ((sortBySizeDesc_perm fs).cons f)

theorem insertDesc_sorted (f : FileDiff) :
    ∀ l : List FileDiff,
      l.Pairwise (fun a b => b.char_count ≤ a.char_count) →
      (insertDesc f l).Pairwise (fun a b => b.char_count ≤ a.char_count)
  | [], _ => List.pairwise_singleton _ f
  | g :: gs, hsort => by
    unfold insertDesc
    rcases List.pairwise_cons.mp hsort with ⟨hg, hgs⟩
    by_cases h : f.char_count < g.char_count
    · rw [if_pos h]
      refine List.pairwise_cons.mpr ⟨?_, insertDesc_sorted f gs hgs⟩
      intro x hx
      rcases List.mem_cons.mp ((insertDesc_perm f gs).mem_iff.mp hx) with rfl | hxgs
      · exact Nat.le_of_lt h
      · exact hg x hxgs
    · rw [if_neg h]
      refine List.pairwise_cons.mpr ⟨?_, hsort⟩
      intro x hx
      rcases List.mem_cons.mp hx with rfl | hxgs
      · exact Nat.le_of_not_lt h
      · exact le_trans (hg x hxgs) (Nat.le_of_not_lt h)

theorem sortBySizeDesc_sorted :
    ∀ l : List FileDiff,
      (sortBySizeDesc l).Pairwise (fun a b => b.char_count ≤ a.char_count)
  | [] => List.Pairwise.nil
  | f :: fs => insertDesc_sorted f (sortBySizeDesc fs) (sortBySizeDesc_sorted fs)

theorem filter_insertDesc_ne (f : FileDiff) (k : Nat)
    (hne : f.char_count ≠ k) :
    ∀ l : List FileDiff,
      (insertDesc f l).filter (fun g => g.char_count == k) =
        l.filter (fun g => g.char_count == k)
  | [] => by simp [insertDesc, hne]
  | g :: gs => by
    unfold insertDesc
    by_cases h : f.char_count < g.char_count
    · rw [if_pos h]
      simp only [List.filter_cons]
      rw [filter_insertDesc_ne f k hne gs]
    · rw [if_neg h]
      simp [List.filter_cons, hne]

theorem filter_insertDesc_eq (f : FileDiff) (k : Nat)
    (heq : f.char_count = k) :
    ∀ l : List FileDiff,
      l.Pairwise (fun a b => b.char_count ≤ a.char_count) →
      (insertDesc f l).filter (fun g => g.char_count == k) =
        f :: l.filter (fun g => g.char_count == k)
  | [], _ => by simp [insertDesc, heq]
  | g :: gs, hsort => by
    unfold insertDesc
    rcases List.pairwise_cons.mp hsort with ⟨_, hgs⟩
    by_cases h : f.char_count < g.char_count
    · rw [if_pos h]
      have hgne : (g.char_count == k) = false := by
        simp only [beq_eq_false_iff_ne]
        omega
      simp only [List.filter_cons, hgne, if_neg]
      rw [filter_insertDesc_eq f k heq gs hgs]
      simp [hgne]
    · rw [if_neg h]
      simp [List.filter_cons, heq]

theorem sortBySizeDesc_stable :
    ∀ (l : List FileDiff) (k : Nat),
      (sortBySizeDesc l).filter (fun g => g.char_count == k) =
        l.filter (fun g => g.char_count == k)
  | [], _ => rfl
  | f :: fs, k => by
    show (insertDesc f (sortBySizeDesc fs)).filter (fun g => g.char_count == k) = _
    by_cases h : f.char_count = k
    · rw [filter_insertDesc_eq f k h (sortBySizeDesc fs) (sortBySizeDesc_sorted fs),
        sortBySizeDesc_stable fs k]
      simp [List.filter_cons, h]
    · rw [filter_insertDesc_ne f k h (sortBySizeDesc fs),
        sortBySizeDesc_stable fs k]
      simp [List.filter_cons, h]

/-! ### Helper lemmas: first-fit placement -/

/-- All file paths across a chunk list, in chunk order. -/
def filesOf (chunks : List ReviewChunk) : List String :=
  (chunks.map ReviewChunk.files).flatten

theorem placeFile_total_le (maxChunkSize : Nat) (fd : FileDiff) :
    ∀ (chunks out : List ReviewChunk),
      placeFile maxChunkSize fd chunks = some out →
      (∀ c ∈ chunks, c.total_chars ≤ maxChunkSize) →
      ∀ c ∈ out, c.total_chars ≤ maxChunkSize
  | [], out, h => by cases h
  | c :: cs, out, h => by
    intro hall c' hc'
    unfold placeFile at h
    by_cases hfit : c.total_chars + fd.char_count ≤ maxChunkSize
    · rw [if_pos hfit] at h
      cases Option.some.inj h
      rcases List.mem_cons.mp hc' with rfl | hmem
      · exact hfit
      · exact hall _ (List.mem_cons_of_mem _ hmem)
    · rw [if_neg hfit] at h
      cases hp : placeFile maxChunkSize fd cs with
      | none => rw [hp] at h; cases h
      | some out' =>
        rw [hp] at h
        cases Option.some.inj h
        rcases List.mem_cons.mp hc' with rfl | hmem
        · exact hall _ (List.mem_cons_self _ _)
        · exact placeFile_total_le maxChunkSize fd cs out' hp
            (fun x hx => hall x (List.mem_cons_of_mem _ hx)) c' hmem

theorem placeFile_filesOf (maxChunkSize : Nat) (fd : FileDiff) :
    ∀ (chunks out : List ReviewChunk),
      placeFile maxChunkSize fd chunks = some out →
      (filesOf out).Perm (filesOf chunks ++ [fd.file_path])
  | [], out, h => by cases h
  | c :: cs, out, h => by
    unfold placeFile at h
    by_cases hfit : c.total_chars + fd.char_count ≤ maxChunkSize
    · rw [if_pos hfit] at h
      cases Option.some.inj h
      show ((c.files ++ [fd.file_path]) ++ filesOf cs).Perm
        ((c.files ++ filesOf cs) ++ [fd.file_path])
      rw [List.append_assoc, List.append_assoc]
      exact List.Perm.append_left _ List.perm_append_comm
    · rw [if_neg hfit] at h
      cases hp : placeFile maxChunkSize fd cs with
      | none => rw [hp] at h; cases h
      | some out' =>
        rw [hp] at h
        cases Option.some.inj h
        show (c.files ++ filesOf out').Perm ((c.files ++ filesOf cs) ++ [fd.file_path])
        rw [List.append_assoc]
        exact List.Perm.append_left _ (placeFile_filesOf maxChunkSize fd cs out' hp)

theorem placeFile_map_id (maxChunkSize : Nat) (fd : FileDiff) :
    ∀ (chunks out : List ReviewChunk),
      placeFile maxChunkSize fd chunks = some out →
      out.map ReviewChunk.chunk_id = chunks.map ReviewChunk.chunk_id
  | [], out, h => by cases h
  | c :: cs, out, h => by
    unfold placeFile at h
    by_cases hfit : c.total_chars + fd.char_count ≤ maxChunkSize
    · rw [if_pos hfit] at h
      cases Option.some.inj h
      rfl
    · rw [if_neg hfit] at h
      cases hp : placeFile maxChunkSize fd cs with
      | none => rw [hp] at h; cases h
      | some out' =>
        rw [hp] at h
        cases Option.some.inj h
        simp only [List.map_cons, placeFile_map_id maxChunkSize fd cs out' hp]

theorem packStep_total_le (maxChunkSize : Nat) (chunks : List ReviewChunk)
    (fd : FileDiff) (h : ∀ c ∈ chunks, c.total_chars ≤ maxChunkSize) :
    ∀ c ∈ packStep maxChunkSize chunks fd, c.total_chars ≤ maxChunkSize := by
  unfold packStep
  by_cases hbig : maxChunkSize < fd.char_count
  · rw [if_pos hbig]
    exact h
  · rw [if_neg hbig]
    cases hp : placeFile maxChunkSize fd chunks with
    | some out => exact placeFile_total_le maxChunkSize fd chunks out hp h
    | none =>
      intro c hc
      rcases List.mem_append.mp hc with hmem | hmem
      · exact h c hmem
      · rw [List.mem_singleton.mp hmem]
        exact Nat.le_of_not_lt hbig

theorem packStep_filesOf (maxChunkSize : Nat) (chunks : List ReviewChunk)
    (fd : FileDiff) :
    (filesOf (packStep maxChunkSize chunks fd)).Perm
      (filesOf chunks ++
        (if fd.char_count ≤ maxChunkSize then [fd.file_path] else [])) := by
  unfold packStep
  by_cases hbig : maxChunkSize < fd.char_count
  · rw [if_pos hbig, if_neg (by omega : ¬ fd.char_count ≤ maxChunkSize)]
    simp
  · rw [if_neg hbig, if_pos (Nat.le_of_not_lt hbig)]
    cases hp : placeFile maxChunkSize fd chunks with
    | some out => exact placeFile_filesOf maxChunkSize fd chunks out hp
    | none =>
      simp [filesOf]

theorem packStep_map_id (maxChunkSize : Nat) (chunks : List ReviewChunk)
    (fd : FileDiff)
    (h : chunks.map ReviewChunk.chunk_id = List.range chunks.length) :
    (packStep maxChunkSize chunks fd).map ReviewChunk.chunk_id =
      List.range (packStep maxChunkSize chunks fd).length := by
  unfold packStep
  by_cases hbig : maxChunkSize < fd.char_count
  · rw [if_pos hbig]
    exact h
  · rw [if_neg hbig]
    cases hp : placeFile maxChunkSize fd chunks with
    | some out =>
      have hmap := placeFile_map_id maxChunkSize fd chunks out hp
      have hlen : out.length = chunks.length := by
        have := congrArg List.length hmap
        simpa using this
      rw [hmap, hlen, h]
    | none =>
      simp only [List.map_append, List.map_cons, List.map_nil, h,
        List.length_append, List.length_cons, List.length_nil]
      rw [← List.range_succ]

theorem foldl_packStep_total_le (maxChunkSize : Nat) :
    ∀ (fds : List FileDiff) (acc : List ReviewChunk),
      (∀ c ∈ acc, c.total_chars ≤ maxChunkSize) →
      ∀ c ∈ fds.foldl (packStep maxChunkSize) acc, c.total_chars ≤ maxChunkSize
  | [], _acc, h => h
  | fd :: fds, acc, h =>
    foldl_packStep_total_le maxChunkSize fds (packStep maxChunkSize acc fd)
      (packStep_total_le maxChunkSize acc fd h)

theorem foldl_packStep_filesOf (maxChunkSize : Nat) :
    ∀ (fds : List FileDiff) (acc : List ReviewChunk),
      (filesOf (fds.foldl (packStep maxChunkSize) acc)).Perm
        (filesOf acc ++
          (fds.filter (fun fd => fd.char_count ≤ maxChunkSize)).map
            FileDiff.file_path)
  | [], acc => by simp
  | fd :: fds, acc => by
    simp only [List.foldl_cons]
    refine (foldl_packStep_filesOf maxChunkSize fds
      (packStep maxChunkSize acc fd)).trans ?_
    refine ((packStep_filesOf maxChunkSize acc fd).append_right _).trans ?_
    rw [List.append_assoc]
    by_cases hle : fd.char_count ≤ maxChunkSize
    · simp [hle, List.filter_cons]
    · simp [hle, List.filter_cons]

theorem foldl_packStep_map_id (maxChunkSize : Nat) :
    ∀ (fds : List FileDiff) (acc : List ReviewChunk),
      acc.map ReviewChunk.chunk_id = List.range acc.length →
      (fds.foldl (packStep maxChunkSize) acc).map ReviewChunk.chunk_id =
        List.range (fds.foldl (packStep maxChunkSize) acc).length
  | [], _acc, h => h
  | fd :: fds, acc, h =>
    foldl_packStep_map_id maxChunkSize fds (packStep maxChunkSize acc fd)
      (packStep_map_id maxChunkSize acc fd h)

theorem groupFilesIntoChunks_total_le (maxChunkSize : Nat)
    (fds : List FileDiff) :
    ∀ c ∈ groupFilesIntoChunks maxChunkSize fds,
      c.total_chars ≤ maxChunkSize :=
  foldl_packStep_total_le maxChunkSize (sortBySizeDesc fds) [] (by simp)

theorem groupFilesIntoChunks_filesOf (maxChunkSize : Nat)
    (fds : List FileDiff) :
    (filesOf (groupFilesIntoChunks maxChunkSize fds)).Perm
      ((fds.filter (fun fd => fd.char_count ≤ maxChunkSize)).map
        FileDiff.file_path) := by
  unfold groupFilesIntoChunks
  have h := foldl_packStep_filesOf maxChunkSize (sortBySizeDesc fds) []
  simp only [filesOf, List.map_nil, List.flatten_nil, List.nil_append] at h
  refine h.trans ?_
  exact ((sortBySizeDesc_perm fds).filter _).map _

theorem groupFilesIntoChunks_ids (maxChunkSize : Nat) (fds : List FileDiff) :
    (groupFilesIntoChunks maxChunkSize fds).map ReviewChunk.chunk_id =
      List.range (groupFilesIntoChunks maxChunkSize fds).length :=
  foldl_packStep_map_id maxChunkSize (sortBySizeDesc fds) [] rfl

/-- The multi-chunk path of `splitDiff`: an oversize diff with at least one
parsed file record is packed by `groupFilesIntoChunks`. -/
theorem splitDiff_multi (maxChunkSize : Nat) (d : String)
    (hlen : maxChunkSize < d.length) (hparse : parseFileDiffs d ≠ []) :
    splitDiff maxChunkSize d =
      groupFilesIntoChunks maxChunkSize (parseFileDiffs d) := by
  unfold splitDiff
  rw [if_neg (by omega : ¬ d.length ≤ maxChunkSize)]
  simp only [List.isEmpty_eq_true]
  rw [if_neg hparse]

/-! ### Claim C2: chunk size bound and oversized-file exclusion -/

/-- C2: every chunk of the multi-chunk packing path keeps `total_chars` within
`maxChunkSize`, and every path placed in a chunk comes from a parsed record
whose own size is within the bound — oversized records are dropped rather than
raising (the splitter is a total function). -/
theorem splitDiff_size_bound (maxChunkSize : Nat) (d : String)
    (hlen : maxChunkSize < d.length) (hparse : parseFileDiffs d ≠ []) :
    ∀ c ∈ splitDiff maxChunkSize d,
      c.total_chars ≤ maxChunkSize ∧
      ∀ p ∈ c.files, ∃ fd ∈ parseFileDiffs d,
        fd.file_path = p ∧ fd.char_count ≤ maxChunkSize := by
  rw [splitDiff_multi maxChunkSize d hlen hparse]
  intro c hc
  refine ⟨groupFilesIntoChunks_total_le maxChunkSize _ c hc, ?_⟩
  intro p hp
  have hmem : p ∈ filesOf (groupFilesIntoChunks maxChunkSize (parseFileDiffs d)) := by
    simp only [filesOf, List.mem_flatten]
    exact ⟨c.files, List.mem_map_of_mem _ hc, hp⟩
  have hmem2 :=
    (groupFilesIntoChunks_filesOf maxChunkSize (parseFileDiffs d)).mem_iff.mp hmem
  rcases List.mem_map.mp hmem2 with ⟨fd, hfd, rfl⟩
  rcases List.mem_filter.mp hfd with ⟨hfd_mem, hfd_le⟩
  exact ⟨fd, hfd_mem, rfl, by simpa using hfd_le⟩

/-- The concrete two-file diff used by the splitter witnesses. -/
def wDiff : String := "diff --git a/x b/x\nAAAA\ndiff --git a/y b/y\nBB"

/-- Witness for C2 at a concrete two-file diff over bound 30. -/
theorem splitDiff_size_bound_witness :
    (30 < wDiff.length ∧ parseFileDiffs wDiff ≠ []) ∧
    ∀ c ∈ splitDiff 30 wDiff,
      c.total_chars ≤ 30 ∧
      ∀ p ∈ c.files, ∃ fd ∈ parseFileDiffs wDiff,
        fd.file_path = p ∧ fd.char_count ≤ 30 :=
  ⟨⟨by decide, by decide⟩,
   splitDiff_size_bound 30 wDiff (by decide) (by decide)⟩

/-! ### Helper lemmas: parsed sizes and chunk content lengths -/

theorem flushFile_char_count (path? : Option String) (lines : List String)
    (acc : List FileDiff)
    (h : ∀ fd ∈ acc, fd.char_count = fd.diff_content.length) :
    ∀ fd ∈ flushFile path? lines acc,
      fd.char_count = fd.diff_content.length := by
  cases path? with
  | none => exact h
  | some p =>
    simp only [flushFile]
    by_cases hnil : lines.isEmpty
    · rw [if_pos hnil]
      exact h
    · rw [if_neg hnil]
      intro fd hfd
      rcases List.mem_append.mp hfd with hmem | hmem
      · exact h fd hmem
      · rw [List.mem_singleton.mp hmem]
        rfl

theorem parseLoop_char_count :
    ∀ (ls : List String) (path? : Option String) (lines : List String)
      (acc : List FileDiff),
      (∀ fd ∈ acc, fd.char_count = fd.diff_content.length) →
      ∀ fd ∈ parseLoop ls path? lines acc,
        fd.char_count = fd.diff_content.length
  | [], path?, lines, acc, h => flushFile_char_count path? lines acc h
  | l :: ls, path?, lines, acc, h => by
    unfold parseLoop
    cases matchDiffHeader l with
    | some dest =>
      exact parseLoop_char_count ls (some dest) [l] _
        (flushFile_char_count path? lines acc h)
    | none => exact parseLoop_char_count ls path? (lines ++ [l]) acc h

/-- Every record `parseFileDiffs` produces records its content's true
length. -/
theorem parseFileDiffs_char_count (d : String) :
    ∀ fd ∈ parseFileDiffs d, fd.char_count = fd.diff_content.length :=
  parseLoop_char_count (splitLines d) none [] [] (by simp)

theorem placeFile_content_len (maxChunkSize : Nat) (fd : FileDiff)
    (hfd : fd.char_count = fd.diff_content.length) :
    ∀ (chunks out : List ReviewChunk),
      placeFile maxChunkSize fd chunks = some out →
      (∀ c ∈ chunks,
        c.diff_content.length = c.total_chars + (c.files.length - 1) ∧
          1 ≤ c.files.length) →
      ∀ c ∈ out,
        c.diff_content.length = c.total_chars + (c.files.length - 1) ∧
          1 ≤ c.files.length
  | [], out, h => by cases h
  | c :: cs, out, h => by
    intro hall c' hc'
    unfold placeFile at h
    by_cases hfit : c.total_chars + fd.char_count ≤ maxChunkSize
    · rw [if_pos hfit] at h
      cases Option.some.inj h
      rcases List.mem_cons.mp hc' with rfl | hmem
      · rcases hall c (List.mem_cons_self _ _) with ⟨hclen, hcpos⟩
        have h1 : (c.diff_content ++ "\n" ++ fd.diff_content).length
            = c.diff_content.length + 1 + fd.diff_content.length := by
          rw [String.length_append, String.length_append]
          rfl
        constructor
        · show (c.diff_content ++ "\n" ++ fd.diff_content).length
            = c.total_chars + fd.char_count +
              ((c.files ++ [fd.file_path]).length - 1)
          rw [h1, List.length_append]
          simp only [List.length_cons, List.length_nil]
          omega
        · show 1 ≤ (c.files ++ [fd.file_path]).length
          rw [List.length_append]
          simp only [List.length_cons, List.length_nil]
          omega
      · exact hall _ (List.mem_cons_of_mem _ hmem)
    · rw [if_neg hfit] at h
      cases hp : placeFile maxChunkSize fd cs with
      | none => rw [hp] at h; cases h
      | some out' =>
        rw [hp] at h
        cases Option.some.inj h
        rcases List.mem_cons.mp hc' with rfl | hmem
        · exact hall _ (List.mem_cons_self _ _)
        · exact placeFile_content_len maxChunkSize fd hfd cs out' hp
            (fun x hx => hall x (List.mem_cons_of_mem _ hx)) c' hmem

theorem packStep_content_len (maxChunkSize : Nat) (chunks : List ReviewChunk)
    (fd : FileDiff) (hfd : fd.char_count = fd.diff_content.length)
    (h : ∀ c ∈ chunks,
      c.diff_content.length = c.total_chars + (c.files.length - 1) ∧
        1 ≤ c.files.length) :
    ∀ c ∈ packStep maxChunkSize chunks fd,
      c.diff_content.length = c.total_chars + (c.files.length - 1) ∧
        1 ≤ c.files.length := by
  unfold packStep
  by_cases hbig : maxChunkSize < fd.char_count
  · rw [if_pos hbig]
    exact h
  · rw [if_neg hbig]
    cases hp : placeFile maxChunkSize fd chunks with
    | some out => exact placeFile_content_len maxChunkSize fd hfd chunks out hp h
    | none =>
      intro c hc
      rcases List.mem_append.mp hc with hmem | hmem
      · exact h c hmem
      · rw [List.mem_singleton.mp hmem]
        exact ⟨by simpa using hfd.symm, by simp⟩

theorem foldl_packStep_content_len (maxChunkSize : Nat) :
    ∀ (fds : List FileDiff) (acc : List ReviewChunk),
      (∀ fd ∈ fds, fd.char_count = fd.diff_content.length) →
      (∀ c ∈ acc,
        c.diff_content.length = c.total_chars + (c.files.length - 1) ∧
          1 ≤ c.files.length) →
      ∀ c ∈ fds.foldl (packStep maxChunkSize) acc,
        c.diff_content.length = c.total_chars + (c.files.length - 1) ∧
          1 ≤ c.files.length
  | [], _acc, _, h => h
  | fd :: fds, acc, hsz, h =>
    foldl_packStep_content_len maxChunkSize fds (packStep maxChunkSize acc fd)
      (fun x hx => hsz x (List.mem_cons_of_mem _ hx))
      (packStep_content_len maxChunkSize acc fd
        (hsz fd (List.mem_cons_self _ _)) h)

/-! ### Claim C10: the unaccounted newline separators -/

/-- C10: for every chunk built by the multi-chunk packing path, the content
length equals `total_chars` plus one uncounted newline separator per file
beyond the first, and therefore can exceed `maxChunkSize` by at most
`files.length - 1` characters. -/
theorem splitDiff_newline_slack (maxChunkSize : Nat) (d : String)
    (hlen : maxChunkSize < d.length) (hparse : parseFileDiffs d ≠ []) :
    ∀ c ∈ splitDiff maxChunkSize d,
      c.diff_content.length = c.total_chars + (c.files.length - 1) ∧
      1 ≤ c.files.length ∧
      c.diff_content.length ≤ maxChunkSize + (c.files.length - 1) := by
  rw [splitDiff_multi maxChunkSize d hlen hparse]
  intro c hc
  have hsort : ∀ fd ∈ sortBySizeDesc (parseFileDiffs d),
      fd.char_count = fd.diff_content.length := fun fd hfd =>
    parseFileDiffs_char_count d fd ((sortBySizeDesc_perm _).mem_iff.mp hfd)
  have hmain := foldl_packStep_content_len maxChunkSize
    (sortBySizeDesc (parseFileDiffs d)) [] hsort (by simp) c hc
  have hbound := groupFilesIntoChunks_total_le maxChunkSize (parseFileDiffs d) c hc
  exact ⟨hmain.1, hmain.2, by omega⟩

/-- Witness for C10 at the concrete two-file diff. -/
theorem splitDiff_newline_slack_witness :
    (30 < wDiff.length ∧ parseFileDiffs wDiff ≠ []) ∧
    ∀ c ∈ splitDiff 30 wDiff,
      c.diff_content.length = c.total_chars + (c.files.length - 1) ∧
      1 ≤ c.files.length ∧
      c.diff_content.length ≤ 30 + (c.files.length - 1) :=
  ⟨⟨by decide, by decide⟩,
   splitDiff_newline_slack 30 wDiff (by decide) (by decide)⟩

/-! ### Claim C8: conservation of files across chunks

As stated, the claim fails: a unified diff may repeat the same `diff --git`
header path, and then the same path is placed once per parsed record, landing
in more than one chunk. Restricted to diffs whose parsed records carry
pairwise-distinct paths — every well-formed diff — conservation and
disjointness hold. -/

/-- A diff repeating the header path "x" in two records of 23 characters
each. -/
def dupDiff : String := "diff --git a/x b/x\nAAAA\ndiff --git a/x b/x\nBBBB"

/-- Counterexample to C8 as stated: on `dupDiff` with bound 30 (multi-chunk
path taken, both records within the bound), the path "x" appears in both
returned chunks, so a file appears in more than one chunk. -/
theorem splitDiff_duplicate_path :
    30 < dupDiff.length ∧ parseFileDiffs dupDiff ≠ [] ∧
    (splitDiff 30 dupDiff).map ReviewChunk.files = [["x"], ["x"]] ∧
    ¬ ((splitDiff 30 dupDiff).map ReviewChunk.files).Pairwise List.Disjoint := by
  refine ⟨by decide, by decide, by decide, ?_⟩
  intro hpair
  rw [show (splitDiff 30 dupDiff).map ReviewChunk.files = [["x"], ["x"]] by decide]
    at hpair
  rcases List.pairwise_cons.mp hpair with ⟨hd, _⟩
  exact hd ["x"] (List.mem_singleton_self _)
    (List.mem_singleton_self _) (List.mem_singleton_self _)

/-- C8 as amended: for a multi-chunk diff whose parsed records have
pairwise-distinct paths, a path appears in some chunk exactly when a parsed
record carries it with size within the bound (the union equals the parsed
paths minus the oversized ones), the chunks' file lists are pairwise disjoint,
and no chunk repeats a path. -/
theorem splitDiff_conservation (maxChunkSize : Nat) (d : String)
    (hlen : maxChunkSize < d.length) (hparse : parseFileDiffs d ≠ [])
    (hnodup : ((parseFileDiffs d).map FileDiff.file_path).Nodup) :
    (∀ p, (∃ c ∈ splitDiff maxChunkSize d, p ∈ c.files) ↔
      ∃ fd ∈ parseFileDiffs d, fd.file_path = p ∧
        fd.char_count ≤ maxChunkSize) ∧
    ((splitDiff maxChunkSize d).map ReviewChunk.files).Pairwise List.Disjoint ∧
    ∀ c ∈ splitDiff maxChunkSize d, c.files.Nodup := by
  rw [splitDiff_multi maxChunkSize d hlen hparse]
  have hperm := groupFilesIntoChunks_filesOf maxChunkSize (parseFileDiffs d)
  have hnodup2 : (filesOf
      (groupFilesIntoChunks maxChunkSize (parseFileDiffs d))).Nodup := by
    rw [hperm.nodup_iff]
    exact hnodup.sublist
      ((List.filter_sublist (parseFileDiffs d)).map FileDiff.file_path)
  rw [filesOf, List.nodup_flatten] at hnodup2
  refine ⟨?_, hnodup2.2, fun c hc => hnodup2.1 c.files (List.mem_map_of_mem _ hc)⟩
  intro p
  constructor
  · rintro ⟨c, hc, hp⟩
    have hmem : p ∈ filesOf
        (groupFilesIntoChunks maxChunkSize (parseFileDiffs d)) := by
      simp only [filesOf, List.mem_flatten]
      exact ⟨c.files, List.mem_map_of_mem _ hc, hp⟩
    rcases List.mem_map.mp (hperm.mem_iff.mp hmem) with ⟨fd, hfd, rfl⟩
    rcases List.mem_filter.mp hfd with ⟨hfd_mem, hfd_le⟩
    exact ⟨fd, hfd_mem, rfl, by simpa using hfd_le⟩
  · rintro ⟨fd, hfd, rfl, hle⟩
    have hmem : fd.file_path ∈ filesOf
        (groupFilesIntoChunks maxChunkSize (parseFileDiffs d)) :=
      hperm.mem_iff.mpr (List.mem_map_of_mem _
        (List.mem_filter.mpr ⟨hfd, by simpa using hle⟩))
    rw [filesOf, List.mem_flatten] at hmem
    rcases hmem with ⟨fl, hfl, hpmem⟩
    rcases List.mem_map.mp hfl with ⟨c, hc, rfl⟩
    exact ⟨c, hc, hpmem⟩

/-- Witness for the amended C8 at the concrete two-file diff with distinct
paths. -/
theorem splitDiff_conservation_witness :
    (30 < wDiff.length ∧ parseFileDiffs wDiff ≠ [] ∧
      ((parseFileDiffs wDiff).map FileDiff.file_path).Nodup) ∧
    ((∃ c ∈ splitDiff 30 wDiff, "x" ∈ c.files) ↔
      ∃ fd ∈ parseFileDiffs wDiff, fd.file_path = "x" ∧
        fd.char_count ≤ 30) ∧
    ∀ c ∈ splitDiff 30 wDiff, c.files.Nodup :=
  ⟨⟨by decide, by decide, by decide⟩,
   (splitDiff_conservation 30 wDiff (by decide) (by decide) (by decide)).1 "x",
   (splitDiff_conservation 30 wDiff (by decide) (by decide) (by decide)).2.2⟩

/-! ### Claim C7: packing order, first-fit and sequential ids -/

/-- First-fit placement as §4.1 of the spec words it: scan existing chunks in
creation order and update the first whose size stays within the bound,
appending the file's path, size and newline-separated content. -/
def specPlaceFirst (maxChunkSize : Nat) (fd : FileDiff) :
    List ReviewChunk → List ReviewChunk
  | [] => []
  | c :: cs =>
    if c.total_chars + fd.char_count ≤ maxChunkSize then
      { c with files := c.files ++ [fd.file_path],
               total_chars := c.total_chars + fd.char_count,
               diff_content := c.diff_content ++ "\n" ++ fd.diff_content } :: cs
    else c :: specPlaceFirst maxChunkSize fd cs

/-- Whether an existing chunk can take the file within the bound. -/
def someChunkFits (maxChunkSize : Nat) (fd : FileDiff)
    (chunks : List ReviewChunk) : Bool :=
  chunks.any (fun c => c.total_chars + fd.char_count ≤ maxChunkSize)

/-- The spec's §4.1 bin-packing loop over an already-ordered record list:
drop a record larger than the bound; place it into the first fitting chunk in
creation order; otherwise open a fresh chunk carrying the next sequential
id. -/
def specFirstFitPack (maxChunkSize : Nat) :
    Nat → List ReviewChunk → List FileDiff → List ReviewChunk
  | _, chunks, [] => chunks
  | nextId, chunks, fd :: rest =>
    if maxChunkSize < fd.char_count then
      specFirstFitPack maxChunkSize nextId chunks rest
    else if someChunkFits maxChunkSize fd chunks then
      specFirstFitPack maxChunkSize nextId
        (specPlaceFirst maxChunkSize fd chunks) rest
    else
      specFirstFitPack maxChunkSize (nextId + 1)
        (chunks ++ [{ chunk_id := nextId, files := [fd.file_path],
                      total_chars := fd.char_count,
                      diff_content := fd.diff_content }]) rest

theorem specPlaceFirst_length (maxChunkSize : Nat) (fd : FileDiff) :
    ∀ chunks : List ReviewChunk,
      (specPlaceFirst maxChunkSize fd chunks).length = chunks.length
  | [] => rfl
  | c :: cs => by
    unfold specPlaceFirst
    by_cases hfit : c.total_chars + fd.char_count ≤ maxChunkSize
    · rw [if_pos hfit]
      rfl
    · rw [if_neg hfit]
      simp only [List.length_cons, specPlaceFirst_length maxChunkSize fd cs]

theorem placeFile_none_iff (maxChunkSize : Nat) (fd : FileDiff) :
    ∀ chunks : List ReviewChunk,
      placeFile maxChunkSize fd chunks = none ↔
        someChunkFits maxChunkSize fd chunks = false
  | [] => by simp [placeFile, someChunkFits]
  | c :: cs => by
    unfold placeFile someChunkFits
    by_cases hfit : c.total_chars + fd.char_count ≤ maxChunkSize
    · simp [hfit]
    · have ih := placeFile_none_iff maxChunkSize fd cs
      simp only [someChunkFits] at ih
      simp [hfit, ih]

theorem placeFile_some_spec (maxChunkSize : Nat) (fd : FileDiff) :
    ∀ chunks out : List ReviewChunk,
      placeFile maxChunkSize fd chunks = some out →
      out = specPlaceFirst maxChunkSize fd chunks
  | [], out, h => by cases h
  | c :: cs, out, h => by
    unfold placeFile at h
    unfold specPlaceFirst
    by_cases hfit : c.total_chars + fd.char_count ≤ maxChunkSize
    · rw [if_pos hfit] at h
      rw [if_pos hfit]
      exact (Option.some.inj h).symm
    · rw [if_neg hfit] at h
      rw [if_neg hfit]
      cases hp : placeFile maxChunkSize fd cs with
      | none => rw [hp] at h; cases h
      | some out' =>
        rw [hp] at h
        cases Option.some.inj h
        rw [placeFile_some_spec maxChunkSize fd cs out' hp]

theorem specFirstFitPack_eq_foldl (maxChunkSize : Nat) :
    ∀ (fds : List FileDiff) (chunks : List ReviewChunk),
      specFirstFitPack maxChunkSize chunks.length chunks fds =
        fds.foldl (packStep maxChunkSize) chunks
  | [], _chunks => rfl
  | fd :: rest, chunks => by
    unfold specFirstFitPack
    simp only [List.foldl_cons]
    by_cases hbig : maxChunkSize < fd.char_count
    · rw [if_pos hbig, specFirstFitPack_eq_foldl maxChunkSize rest chunks]
      unfold packStep
      rw [if_pos hbig]
    · rw [if_neg hbig]
      cases hp : placeFile maxChunkSize fd chunks with
      | some out =>
        have hfits : someChunkFits maxChunkSize fd chunks = true := by
          cases hsf : someChunkFits maxChunkSize fd chunks
          · rw [← placeFile_none_iff maxChunkSize fd chunks] at hsf
            rw [hp] at hsf
            cases hsf
          · rfl
        rw [if_pos hfits]
        have hout : out = specPlaceFirst maxChunkSize fd chunks :=
          placeFile_some_spec maxChunkSize fd chunks out hp
        have hstep : packStep maxChunkSize chunks fd =
            specPlaceFirst maxChunkSize fd chunks := by
          unfold packStep
          rw [if_neg hbig, hp, hout]
        rw [show chunks.length =
            (specPlaceFirst maxChunkSize fd chunks).length from
          (specPlaceFirst_length maxChunkSize fd chunks).symm]
        rw [specFirstFitPack_eq_foldl maxChunkSize rest
          (specPlaceFirst maxChunkSize fd chunks), hstep]
      | none =>
        have hfits : someChunkFits maxChunkSize fd chunks = false :=
          (placeFile_none_iff maxChunkSize fd chunks).mp hp
        rw [hfits]
        simp only [Bool.false_eq_true, if_false]
        have hstep : packStep maxChunkSize chunks fd =
            chunks ++ [{ chunk_id := chunks.length, files := [fd.file_path],
                         total_chars := fd.char_count,
                         diff_content := fd.diff_content }] := by
          unfold packStep
          rw [if_neg hbig, hp]
        have hlen : chunks.length + 1 =
            (chunks ++ [({ chunk_id := chunks.length, files := [fd.file_path],
                           total_chars := fd.char_count,
                           diff_content := fd.diff_content } : ReviewChunk)]).length := by
          simp
        rw [hlen, specFirstFitPack_eq_foldl maxChunkSize rest _, hstep]

/-- C7: the multi-chunk path of `splitDiff` is exactly the spec's first-fit
packing — stable size-descending order (a permutation of the parsed records,
size-descending, with every equal-size class kept in encounter order), each
record placed into the first fitting chunk in creation order, a fresh chunk
with the next sequential id otherwise — and the returned list is in creation
order with `chunk_id` equal to list position. -/
theorem splitDiff_packing_order (maxChunkSize : Nat) (d : String)
    (hlen : maxChunkSize < d.length) (hparse : parseFileDiffs d ≠ []) :
    splitDiff maxChunkSize d =
      specFirstFitPack maxChunkSize 0 []
        (sortBySizeDesc (parseFileDiffs d)) ∧
    (sortBySizeDesc (parseFileDiffs d)).Perm (parseFileDiffs d) ∧
    (sortBySizeDesc (parseFileDiffs d)).Pairwise
      (fun a b => b.char_count ≤ a.char_count) ∧
    (∀ k, (sortBySizeDesc (parseFileDiffs d)).filter
        (fun g => g.char_count == k) =
      (parseFileDiffs d).filter (fun g => g.char_count == k)) ∧
    (splitDiff maxChunkSize d).map ReviewChunk.chunk_id =
      List.range (splitDiff maxChunkSize d).length := by
  have hmulti := splitDiff_multi maxChunkSize d hlen hparse
  refine ⟨?_, sortBySizeDesc_perm _, sortBySizeDesc_sorted _,
    fun k => sortBySizeDesc_stable _ k, ?_⟩
  · rw [hmulti]
    unfold groupFilesIntoChunks
    exact (specFirstFitPack_eq_foldl maxChunkSize _ []).symm
  · rw [hmulti]
    exact groupFilesIntoChunks_ids maxChunkSize (parseFileDiffs d)

/-- Witness for C7 at the concrete two-file diff. -/
theorem splitDiff_packing_order_witness :
    (30 < wDiff.length ∧ parseFileDiffs wDiff ≠ []) ∧
    splitDiff 30 wDiff =
      specFirstFitPack 30 0 [] (sortBySizeDesc (parseFileDiffs wDiff)) ∧
    (sortBySizeDesc (parseFileDiffs wDiff)).filter
        (fun g => g.char_count == 23) =
      (parseFileDiffs wDiff).filter (fun g => g.char_count == 23) ∧
    (splitDiff 30 wDiff).map ReviewChunk.chunk_id =
      List.range (splitDiff 30 wDiff).length :=
  ⟨⟨by decide, by decide⟩,
   (splitDiff_packing_order 30 wDiff (by decide) (by decide)).1,
   (splitDiff_packing_order 30 wDiff (by decide) (by decide)).2.2.2.1 23,
   (splitDiff_packing_order 30 wDiff (by decide) (by decide)).2.2.2.2⟩

/-! ### Claim C6: batching and the concurrency bound

`multiThreadReview` dispatches one batch at a time: within `settleBatches`
each batch is settled in full (the `await Promise.allSettled` of the source)
before the fold moves to the next batch, so the set of simultaneously
outstanding chunk reviews is always a subset of one batch, whose size the
following theorem bounds by `maxConcurrent`. -/

/-- C6: with `N ≥ 2` chunks and concurrency limit `k > 0`, the chunk list is
partitioned into consecutive batches whose in-order concatenation is the
original list, every batch holds at most `k` chunks, and the dispatcher's
result is exactly the batch-by-batch sequential settlement of those batches —
so no more than `k` chunk reviews are ever outstanding simultaneously. -/
theorem createBatches_partition (k : Nat) (hk : 0 < k)
    (chunks : List ReviewChunk) (o : ReviewChunk → Except String ReviewResult)
    (_hN : 2 ≤ chunks.length) :
    (createBatches chunks k).flatten = chunks ∧
    (∀ b ∈ createBatches chunks k, b.length ≤ k) ∧
    multiThreadReview k o chunks =
      aggregateResults (settleBatches o (createBatches chunks k)).1
        (settleBatches o (createBatches chunks k)).2 :=
  ⟨createBatches_flatten k hk chunks,
   createBatches_batch_length_le k chunks, rfl⟩

/-- Witness for C6: three chunks with limit 2 form the batches
`[[c0, c1], [c2]]`. -/
theorem createBatches_partition_witness :
    ((0 : Nat) < 2 ∧
      2 ≤ ([wChunkA, wChunkB, ⟨2, ["c"], 1, "z"⟩] : List ReviewChunk).length) ∧
    (createBatches [wChunkA, wChunkB, ⟨2, ["c"], 1, "z"⟩] 2).flatten =
      [wChunkA, wChunkB, ⟨2, ["c"], 1, "z"⟩] ∧
    (∀ b ∈ createBatches [wChunkA, wChunkB, ⟨2, ["c"], 1, "z"⟩] 2,
      b.length ≤ 2) ∧
    createBatches [wChunkA, wChunkB, ⟨2, ["c"], 1, "z"⟩] 2 =
      [[wChunkA, wChunkB], [⟨2, ["c"], 1, "z"⟩]] :=
  ⟨⟨by decide, by decide⟩,
   (createBatches_partition 2 (by decide) [wChunkA, wChunkB, ⟨2, ["c"], 1, "z"⟩]
      wOracle (by decide)).1,
   (createBatches_partition 2 (by decide) [wChunkA, wChunkB, ⟨2, ["c"], 1, "z"⟩]
      wOracle (by decide)).2.1,
   by simp [createBatches]⟩
